import Mathlib

/-!
# Vector-Graph Native Database — verification of the spec against the code

Shallow embedding of the core of the repository:

* `src/app/graph_engine.py` — `GraphEngine`: a hybrid store holding a
  `networkx.DiGraph` in memory together with a durable SQLite copy
  (tables `nodes(id PRIMARY KEY, metadata)` and
  `edges(source, target, type, weight, PRIMARY KEY (source,target,type))`);
  operations `add_nodes`, `add_edges`, `get_neighbors`.
* `src/app/hybrid_logic.py` — `HybridEngine.hybrid_search`: fuses an
  externally supplied similarity ranking with a 1-hop graph boost.

Modelling conventions:

* Python `dict`s (node metadata, the SQLite tables, the networkx adjacency
  and attribute dictionaries, the `scores` / `graph_boosts` / `final_candidates`
  dictionaries) are association lists with unique keys in insertion order;
  `alSet` is `d[k] = v` (replace in place, else append), `alGet` is `d.get(k)`.
* Python floats are embedded as rationals (`ℚ`); the constants involved in
  the claims (0.3, 0.5, 0.9, 0.4, 1.0) make all the claimed comparisons
  robust to this choice.
* `set(...)` results that the code exposes only up to membership are
  returned as `dedup`-ed lists; claims about them are stated set-wise.
* The iteration order of the Python set `all_ids = set(scores) | set(graph_boosts)`
  in `hybrid_search` is implementation-defined (string hashes are salted per
  process), so the embedding takes this enumeration as an explicit `order`
  argument, constrained in theorems to be a permutation of the union.
* The `reason` display string built by `hybrid_search` is not modelled; no
  claim mentions it.
-/

namespace VGDB

/-! ## Association lists (Python dicts / SQLite keyed tables) -/

/-- `d.get(k)` on a Python dict / `SELECT` by primary key: first entry with
key `k`, if any. -/
def alGet {κ α : Type} [DecidableEq κ] (m : List (κ × α)) (k : κ) : Option α :=
  (m.find? (fun p => p.1 = k)).map (fun p => p.2)

/-- `d[k] = v` on a Python dict, and SQLite `INSERT OR REPLACE` on a keyed
table: replace the entry for `k` in place, else append `(k, v)`. -/
def alSet {κ α : Type} [DecidableEq κ] (m : List (κ × α)) (k : κ) (v : α) :
    List (κ × α) :=
  if m.any (fun p => p.1 = k) then
    m.map (fun p => if p.1 = k then (k, v) else p)
  else m ++ [(k, v)]

/-- The key list of an association list (a Python dict's insertion-ordered
keys). -/
def alKeys {κ α : Type} (m : List (κ × α)) : List κ := m.map (fun p => p.1)

/-- Node metadata: a Python `Dict[str, Any]`, embedded with string values. -/
abbrev Meta := List (String × String)

/-- Python `old.update(new)` (the semantics of `networkx.add_node` on an
existing node's attribute dict): keys of `new` overwrite in place, fresh keys
are appended. -/
def dictUpdate (old new : Meta) : Meta :=
  new.foldl (fun acc kv => alSet acc kv.1 kv.2) old

/-! ## Data model (`src/app/models.py`) -/

/-- `NodeCreate` (`models.py`); the `text` field is unused by `GraphEngine`
and omitted. -/
structure NodeCreate where
  id : String
  metadata : Meta
deriving DecidableEq, Repr

/-- `EdgeCreate` (`models.py`). -/
structure EdgeCreate where
  source : String
  target : String
  type : String
  weight : ℚ
deriving DecidableEq, Repr

/-! ## The hybrid store (`src/app/graph_engine.py`)

`memNodes`/`memEdges` are the in-memory `networkx.DiGraph` (node attribute
dicts; edge attribute dicts keyed by the ordered pair `(source, target)` —
a `DiGraph` holds at most one edge per ordered pair).  `dbNodes`/`dbEdges`
are the durable SQLite tables (`nodes` keyed by `id`, `edges` keyed by the
triple `(source, target, type)`). -/
structure Store where
  memNodes : List (String × Meta)
  memEdges : List ((String × String) × String × ℚ)
  dbNodes : List (String × Meta)
  dbEdges : List ((String × String × String) × ℚ)
deriving DecidableEq, Repr

/-- The store as built by `GraphEngine.__init__` on a fresh database. -/
def emptyStore : Store := ⟨[], [], [], []⟩

/-- `networkx.DiGraph.add_node(node.id, **node.metadata)`: a fresh node gets
a new attribute dict updated with the metadata; an existing node has its
attribute dict updated in place (merge, not replacement). -/
def memAddNode (s : Store) (n : NodeCreate) : Store :=
  match alGet s.memNodes n.id with
  | some old => { s with memNodes := alSet s.memNodes n.id (dictUpdate old n.metadata) }
  | none => { s with memNodes := s.memNodes ++ [(n.id, dictUpdate [] n.metadata)] }

/-- `INSERT OR REPLACE INTO nodes (id, metadata) VALUES (?, ?)`. -/
def dbPutNode (s : Store) (n : NodeCreate) : Store :=
  { s with dbNodes := alSet s.dbNodes n.id n.metadata }

/-- One iteration of the loop in `GraphEngine.add_nodes`: in-memory update,
then the durable write. -/
def addNode (s : Store) (n : NodeCreate) : Store :=
  dbPutNode (memAddNode s n) n

/-- `GraphEngine.add_nodes` (successful run: every statement executes and
the final `commit` lands). -/
def add_nodes (s : Store) (ns : List NodeCreate) : Store :=
  ns.foldl addNode s

/-- `networkx` auto-creation of an edge endpoint: a node absent from the
graph is added with an empty attribute dict; a present node is untouched. -/
def memEnsureNode (s : Store) (id : String) : Store :=
  if (alGet s.memNodes id).isSome then s
  else { s with memNodes := s.memNodes ++ [(id, [])] }

/-- `networkx.DiGraph.add_edge(source, target, type=…, weight=…)`: both
endpoints are auto-created as nodes, and the edge attribute dict for the
ordered pair is updated with both keys (hence fully replaced). -/
def memAddEdge (s : Store) (e : EdgeCreate) : Store :=
  let s1 := memEnsureNode s e.source
  let s2 := memEnsureNode s1 e.target
  { s2 with memEdges := alSet s2.memEdges (e.source, e.target) (e.type, e.weight) }

/-- `INSERT OR REPLACE INTO edges (source, target, type, weight) VALUES (?,?,?,?)`. -/
def dbPutEdge (s : Store) (e : EdgeCreate) : Store :=
  { s with dbEdges := alSet s.dbEdges (e.source, e.target, e.type) e.weight }

/-- One iteration of the loop in `GraphEngine.add_edges`. -/
def addEdge (s : Store) (e : EdgeCreate) : Store :=
  dbPutEdge (memAddEdge s e) e

/-- `GraphEngine.add_edges` (successful run). -/
def add_edges (s : Store) (es : List EdgeCreate) : Store :=
  es.foldl addEdge s

/-! ## Traversal (`GraphEngine.get_neighbors`) -/

/-- `node_id in self.graph`: the in-memory node set. -/
def memNodeIds (s : Store) : List String := s.memNodes.map (fun p => p.1)

/-- `self.graph.successors(u)`: targets of in-memory edges out of `u`. -/
def successors (s : Store) (u : String) : List String :=
  (s.memEdges.filter (fun e => e.1.1 = u)).map (fun e => e.1.2)

/-- `self.graph.predecessors(u)`: sources of in-memory edges into `u`. -/
def predecessors (s : Store) (u : String) : List String :=
  (s.memEdges.filter (fun e => e.1.2 = u)).map (fun e => e.1.1)

/-- Adjacency of `self.graph.to_undirected()`. -/
def adjUndir (s : Store) (u : String) : List String :=
  successors s u ++ predecessors s u

/-- One round of breadth-first expansion over the undirected view: the
current set together with every neighbor of a current node. -/
def expand (s : Store) (cur : List String) : List String :=
  (cur ++ cur.flatMap (adjUndir s)).dedup

/-- The set of nodes at undirected distance at most `d` from `start`:
the value set of `nx.single_source_shortest_path_length(undirected, start,
cutoff=d)` for `d ≥ 0`. -/
def ball (s : Store) (start : String) : Nat → List String
  | 0 => [start]
  | d + 1 => expand s (ball s start d)

/-- `GraphEngine.get_neighbors(node_id, depth)`.  An absent id returns `[]`.
`depth == 1` returns `list(set(successors + predecessors))` (no exclusion of
the queried node).  Any other depth runs the undirected BFS with
`cutoff=depth` and filters out the start node; for a negative cutoff the
BFS `while cutoff >= level` guard yields nothing at all. -/
def get_neighbors (s : Store) (nodeId : String) (depth : Int) : List String :=
  if nodeId ∈ memNodeIds s then
    if depth = 1 then
      (successors s nodeId ++ predecessors s nodeId).dedup
    else if depth < 0 then []
    else (ball s nodeId depth.toNat).filter (fun x => x ≠ nodeId)
  else []

/-! ## Hybrid fusion (`src/app/hybrid_logic.py`) -/

/-- One record of the Similarity Collaborator's response
(`VectorEngine.search` output): `id` and `score ∈ [0,1]`; the `text` and
`metadata` fields are unused by `hybrid_search` and omitted. -/
structure Anchor where
  id : String
  score : ℚ
deriving DecidableEq, Repr

/-- One ranked candidate of the `hybrid_search` output (the `reason` display
string is not modelled). -/
structure Cand where
  id : String
  score : ℚ
deriving DecidableEq, Repr

/-- Step 1 of `hybrid_search`: the `scores` dict,
`scores[res.id] = res.score * vector_weight` in response order. -/
def scoresOf (vres : List Anchor) (vw : ℚ) : List (String × ℚ) :=
  vres.foldl (fun acc r => alSet acc r.id (r.score * vw)) []

/-- Step 2 of `hybrid_search`: the `graph_boosts` dict.  For every anchor,
each 1-hop neighbor accumulates `0.3 * anchor.score`, summed additively
across anchors. -/
def boostsOf (s : Store) (vres : List Anchor) : List (String × ℚ) :=
  vres.foldl (fun acc r =>
    (get_neighbors s r.id 1).foldl (fun acc2 nb =>
      match alGet acc2 nb with
      | some b => alSet acc2 nb (b + (3 / 10) * r.score)
      | none => alSet acc2 nb ((3 / 10) * r.score)) acc) []

/-- The candidate id set `all_ids = set(scores.keys()) | set(graph_boosts.keys())`,
in one canonical enumeration; the theorems quantify over every permutation
of it, since a Python set's iteration order is implementation-defined. -/
def allIds (scores boosts : List (String × ℚ)) : List String :=
  (scores.map (fun p => p.1) ++ boosts.map (fun p => p.1)).dedup

/-- Step 3 of `hybrid_search` for one candidate id:
`v_score = scores.get(nid, 0.0)`,
`g_score = min(graph_boosts.get(nid, 0.0), 1.0) * graph_weight`,
`final = v_score + g_score`. -/
def mkCand (scores boosts : List (String × ℚ)) (gw : ℚ) (nid : String) : Cand :=
  let v := (alGet scores nid).getD 0
  let g := min ((alGet boosts nid).getD 0) 1 * gw
  ⟨nid, v + g⟩

/-- Stable insertion for a descending sort on `score`: `x` goes in front of
the first strictly smaller element, hence after every element with an equal
score — the placement Python's stable `sorted(..., reverse=True)` gives. -/
def insertDesc (x : Cand) : List Cand → List Cand
  | [] => [x]
  | y :: ys => if y.score < x.score then x :: y :: ys else y :: insertDesc x ys

/-- Step 4's `sorted(final_candidates.values(), key=score, reverse=True)`:
a stable descending sort. -/
def sortDesc (l : List Cand) : List Cand :=
  l.foldl (fun acc x => insertDesc x acc) []

/-- `HybridEngine.hybrid_search`.  `vres` is the Similarity Collaborator's
response to `self.vec.search(query, limit=top_k*2)` (an external
collaborator, taken as input); `order` is the iteration order of the Python
set `all_ids`. -/
def hybrid_search (s : Store) (vres : List Anchor) (vw gw : ℚ) (topK : Nat)
    (order : List String) : List Cand :=
  (sortDesc (order.map (mkCand (scoresOf vres vw) (boostsOf s vres) gw))).take topK

/-! ## Operation sequences (for the write-through invariant) -/

/-- A mutating operation of the `GraphEngine` API. -/
inductive Op where
  | upsertNodes (ns : List NodeCreate)
  | upsertEdges (es : List EdgeCreate)

/-- Run one mutating operation. -/
def applyOp (s : Store) : Op → Store
  | .upsertNodes ns => add_nodes s ns
  | .upsertEdges es => add_edges s es

/-- Run a sequence of mutating operations. -/
def applyOps (s : Store) (ops : List Op) : Store := ops.foldl applyOp s

/-- The durable/in-memory relationship `GraphEngine` actually maintains:
every durable node id is an in-memory node id, and every in-memory edge
(with its `type` attribute and weight) has a matching durable row. -/
def dbMemConsistent (s : Store) : Prop :=
  (∀ i ∈ alKeys s.dbNodes, i ∈ memNodeIds s) ∧
  (∀ p ∈ s.memEdges, ((p.1.1, p.1.2, p.2.1), p.2.2) ∈ s.dbEdges)

/-! ## Fallible durable writes (for the failure-atomicity claim)

In `GraphEngine.add_nodes` / `add_edges` each loop iteration first mutates
the in-memory graph and then runs `cursor.execute(...)`; `conn.commit()`
runs once after the loop.  `failIdx` counts the records until the one whose
`execute` raises; executed statements are buffered (`pend`) and reach the
durable tables only at the final commit.  On an exception the interrupted
store (memory mutated, nothing committed) escapes with the error. -/

def addNodesGo (stx : Store) (pend : List NodeCreate) (failIdx : Nat) :
    List NodeCreate → Except Store Store
  | [] => .ok (pend.foldl dbPutNode stx)
  | n :: rest =>
    let m := memAddNode stx n
    match failIdx with
    | 0 => .error m
    | fI + 1 => addNodesGo m (pend ++ [n]) fI rest

/-- `GraphEngine.add_nodes` when the durable write of record `failIdx`
(0-based) raises; out-of-range `failIdx` is the successful run. -/
def addNodesF (s : Store) (ns : List NodeCreate) (failIdx : Nat) :
    Except Store Store :=
  addNodesGo s [] failIdx ns

def addEdgesGo (stx : Store) (pend : List EdgeCreate) (failIdx : Nat) :
    List EdgeCreate → Except Store Store
  | [] => .ok (pend.foldl dbPutEdge stx)
  | e :: rest =>
    let m := memAddEdge stx e
    match failIdx with
    | 0 => .error m
    | fI + 1 => addEdgesGo m (pend ++ [e]) fI rest

/-- `GraphEngine.add_edges` when the durable write of record `failIdx`
raises. -/
def addEdgesF (s : Store) (es : List EdgeCreate) (failIdx : Nat) :
    Except Store Store :=
  addEdgesGo s [] failIdx es

/-! ## Auxiliary predicates and concrete scenarios -/

/-- The in-memory graph has the edge `n → n`. -/
def hasSelfLoop (s : Store) (n : String) : Bool :=
  (alGet s.memEdges (n, n)).isSome

/-- The spec's worked-example graph: only the edge `A→B` of type `creates`. -/
def stWorked : Store := add_edges emptyStore [⟨"A", "B", "creates", 1⟩]

/-- The spec's worked-example similarity response: `[{A, 0.9}, {B, 0.4}]`. -/
def vresWorked : List Anchor := [⟨"A", 9/10⟩, ⟨"B", 2/5⟩]

/-- A graph whose only edge is the self-loop `A→A`. -/
def stLoop : Store := add_edges emptyStore [⟨"A", "A", "t", 1⟩]

/-! # Lemmas -/

section AlLemmas

variable {κ α : Type} [DecidableEq κ]

theorem alGet_nil (k : κ) : alGet ([] : List (κ × α)) k = none := rfl

theorem alGet_cons (p : κ × α) (m : List (κ × α)) (k : κ) :
    alGet (p :: m) k = if p.1 = k then some p.2 else alGet m k := by
  by_cases h : p.1 = k <;> simp [alGet, List.find?_cons, h]

theorem alGet_eq_none_iff (m : List (κ × α)) (k : κ) :
    alGet m k = none ↔ k ∉ alKeys m := by
  induction m with
  | nil => simp [alGet_nil, alKeys]
  | cons p rest ih =>
    by_cases h : p.1 = k
    · simp [alGet_cons, h, alKeys]
    · simp [alGet_cons, h, alKeys] at ih ⊢
      exact ⟨fun hr => ⟨fun he => h he.symm, ih.mp hr⟩, fun hr => ih.mpr hr.2⟩

theorem alGet_isSome_iff (m : List (κ × α)) (k : κ) :
    (alGet m k).isSome = true ↔ k ∈ alKeys m := by
  rcases hm : alGet m k with _ | v
  · simp only [Option.isSome_none, Bool.false_eq_true, false_iff]
    exact (alGet_eq_none_iff m k).mp hm
  · simp only [Option.isSome_some, true_iff]
    by_contra hk
    rw [← alGet_eq_none_iff] at hk
    rw [hm] at hk
    exact Option.noConfusion hk

theorem anyKey_eq_true_iff (m : List (κ × α)) (k : κ) :
    (m.any (fun p => p.1 = k)) = true ↔ k ∈ alKeys m := by
  simp [List.any_eq_true, alKeys, List.mem_map]

theorem alGet_append (m l : List (κ × α)) (k : κ) :
    alGet (m ++ l) k = (alGet m k).orElse (fun _ => alGet l k) := by
  induction m with
  | nil => simp [alGet_nil]
  | cons p rest ih =>
    by_cases h : p.1 = k <;> simp [alGet_cons, h, ih]

theorem alGet_replaceAll_ne (m : List (κ × α)) (k j : κ) (v : α) (h : j ≠ k) :
    alGet (m.map (fun p => if p.1 = k then (k, v) else p)) j = alGet m j := by
  induction m with
  | nil => rfl
  | cons p rest ih =>
    by_cases hp : p.1 = k
    · simp only [List.map_cons, if_pos hp, alGet_cons]
      rw [if_neg (fun he => h he.symm), if_neg (by rw [hp]; exact fun he => h he.symm), ih]
    · simp only [List.map_cons, if_neg hp, alGet_cons, ih]

theorem alGet_replaceAll_self (m : List (κ × α)) (k : κ) (v : α)
    (h : (m.any (fun p => p.1 = k)) = true) :
    alGet (m.map (fun p => if p.1 = k then (k, v) else p)) k = some v := by
  induction m with
  | nil => simp at h
  | cons p rest ih =>
    by_cases hp : p.1 = k
    · simp [List.map_cons, if_pos hp, alGet_cons]
    · simp only [List.any_cons, Bool.or_eq_true, decide_eq_true_eq] at h
      rcases h with h | h
      · exact absurd h hp
      · simp only [List.map_cons, if_neg hp, alGet_cons, if_neg hp]
        exact ih h

theorem alGet_alSet_self (m : List (κ × α)) (k : κ) (v : α) :
    alGet (alSet m k v) k = some v := by
  unfold alSet
  by_cases h : (m.any (fun p => p.1 = k)) = true
  · rw [if_pos h]; exact alGet_replaceAll_self m k v h
  · rw [if_neg h, alGet_append]
    have : alGet m k = none := by
      rw [alGet_eq_none_iff]
      exact fun hm => h ((anyKey_eq_true_iff m k).mpr hm)
    simp [this, alGet_cons]

theorem alGet_alSet_ne (m : List (κ × α)) (k j : κ) (v : α) (h : j ≠ k) :
    alGet (alSet m k v) j = alGet m j := by
  unfold alSet
  by_cases hc : (m.any (fun p => p.1 = k)) = true
  · rw [if_pos hc]; exact alGet_replaceAll_ne m k j v h
  · rw [if_neg hc, alGet_append]
    cases hm : alGet m j <;> simp [alGet_cons, alGet_nil, hm, Ne.symm h]

theorem alKeys_replaceAll (m : List (κ × α)) (k : κ) (v : α) :
    alKeys (m.map (fun p => if p.1 = k then (k, v) else p)) = alKeys m := by
  induction m with
  | nil => rfl
  | cons p rest ih =>
    by_cases hp : p.1 = k <;>
      simp only [List.map_cons, if_pos, if_neg, hp, alKeys] at ih ⊢ <;>
      simp [hp, ih]

theorem alKeys_alSet (m : List (κ × α)) (k : κ) (v : α) :
    alKeys (alSet m k v) = if k ∈ alKeys m then alKeys m else alKeys m ++ [k] := by
  unfold alSet
  by_cases h : (m.any (fun p => p.1 = k)) = true
  · rw [if_pos h, if_pos ((anyKey_eq_true_iff m k).mp h), alKeys_replaceAll]
  · rw [if_neg h, if_neg (fun hm => h ((anyKey_eq_true_iff m k).mpr hm))]
    simp [alKeys]

theorem mem_alSet_self (m : List (κ × α)) (k : κ) (v : α) : (k, v) ∈ alSet m k v := by
  unfold alSet
  by_cases h : (m.any (fun p => p.1 = k)) = true
  · rw [if_pos h]
    rcases List.any_eq_true.mp h with ⟨p, hp, he⟩
    rw [decide_eq_true_eq] at he
    exact List.mem_map.mpr ⟨p, hp, by simp [he]⟩
  · rw [if_neg h]; simp

theorem mem_alSet_of_keyne {m : List (κ × α)} {p : κ × α} (k : κ) (v : α)
    (hp : p ∈ m) (hne : p.1 ≠ k) : p ∈ alSet m k v := by
  unfold alSet
  by_cases h : (m.any (fun q => q.1 = k)) = true
  · rw [if_pos h]
    exact List.mem_map.mpr ⟨p, hp, by rw [if_neg hne]⟩
  · rw [if_neg h]; exact List.mem_append_left _ hp

theorem mem_alSet_elim {m : List (κ × α)} {p : κ × α} {k : κ} {v : α}
    (h : p ∈ alSet m k v) : p = (k, v) ∨ (p ∈ m ∧ p.1 ≠ k) := by
  unfold alSet at h
  by_cases hc : (m.any (fun q => q.1 = k)) = true
  · rw [if_pos hc] at h
    rcases List.mem_map.mp h with ⟨q, hq, he⟩
    by_cases hqk : q.1 = k
    · rw [if_pos hqk] at he; exact Or.inl he.symm
    · rw [if_neg hqk] at he; exact Or.inr ⟨he ▸ hq, he ▸ hqk⟩
  · rw [if_neg hc] at h
    rcases List.mem_append.mp h with h | h
    · refine Or.inr ⟨h, fun he => ?_⟩
      exact hc (List.any_eq_true.mpr ⟨p, h, by simp [he]⟩)
    · exact Or.inl (List.mem_singleton.mp h)

theorem alKeys_nodup_alSet {m : List (κ × α)} (k : κ) (v : α)
    (h : (alKeys m).Nodup) : (alKeys (alSet m k v)).Nodup := by
  rw [alKeys_alSet]
  by_cases hm : k ∈ alKeys m
  · rw [if_pos hm]; exact h
  · rw [if_neg hm]
    simp [List.nodup_append, h, hm]

end AlLemmas

/-! ## Store field lemmas -/

theorem memNodes_dbPutNode (s : Store) (n : NodeCreate) :
    (dbPutNode s n).memNodes = s.memNodes := rfl

theorem memEdges_dbPutNode (s : Store) (n : NodeCreate) :
    (dbPutNode s n).memEdges = s.memEdges := rfl

theorem dbEdges_dbPutNode (s : Store) (n : NodeCreate) :
    (dbPutNode s n).dbEdges = s.dbEdges := rfl

theorem memNodes_dbPutEdge (s : Store) (e : EdgeCreate) :
    (dbPutEdge s e).memNodes = s.memNodes := rfl

theorem memEdges_dbPutEdge (s : Store) (e : EdgeCreate) :
    (dbPutEdge s e).memEdges = s.memEdges := rfl

theorem dbNodes_dbPutEdge (s : Store) (e : EdgeCreate) :
    (dbPutEdge s e).dbNodes = s.dbNodes := rfl

theorem dbNodes_memAddNode (s : Store) (n : NodeCreate) :
    (memAddNode s n).dbNodes = s.dbNodes := by
  unfold memAddNode; cases alGet s.memNodes n.id <;> rfl

theorem dbEdges_memAddNode (s : Store) (n : NodeCreate) :
    (memAddNode s n).dbEdges = s.dbEdges := by
  unfold memAddNode; cases alGet s.memNodes n.id <;> rfl

theorem memEdges_memAddNode (s : Store) (n : NodeCreate) :
    (memAddNode s n).memEdges = s.memEdges := by
  unfold memAddNode; cases alGet s.memNodes n.id <;> rfl

theorem dbNodes_memEnsureNode (s : Store) (i : String) :
    (memEnsureNode s i).dbNodes = s.dbNodes := by
  unfold memEnsureNode; split <;> rfl

theorem dbEdges_memEnsureNode (s : Store) (i : String) :
    (memEnsureNode s i).dbEdges = s.dbEdges := by
  unfold memEnsureNode; split <;> rfl

theorem memEdges_memEnsureNode (s : Store) (i : String) :
    (memEnsureNode s i).memEdges = s.memEdges := by
  unfold memEnsureNode; split <;> rfl

theorem dbNodes_memAddEdge (s : Store) (e : EdgeCreate) :
    (memAddEdge s e).dbNodes = s.dbNodes := by
  unfold memAddEdge
  simp [dbNodes_memEnsureNode]

theorem dbEdges_memAddEdge (s : Store) (e : EdgeCreate) :
    (memAddEdge s e).dbEdges = s.dbEdges := by
  unfold memAddEdge
  simp [dbEdges_memEnsureNode]

theorem memEdges_memAddEdge (s : Store) (e : EdgeCreate) :
    (memAddEdge s e).memEdges =
      alSet s.memEdges (e.source, e.target) (e.type, e.weight) := by
  unfold memAddEdge
  simp [memEdges_memEnsureNode]

/-- One `add_nodes` loop iteration, in-memory half: merge into an existing
attribute dict, else append a fresh node. -/
theorem memNodes_addNode (s : Store) (i : String) (m : Meta) :
    (addNode s ⟨i, m⟩).memNodes =
      match alGet s.memNodes i with
      | some old => alSet s.memNodes i (dictUpdate old m)
      | none => s.memNodes ++ [(i, dictUpdate [] m)] := by
  show (memAddNode s ⟨i, m⟩).memNodes = _
  unfold memAddNode
  cases alGet s.memNodes i <;> rfl

/-- One `add_nodes` loop iteration, durable half: INSERT OR REPLACE. -/
theorem dbNodes_addNode (s : Store) (i : String) (m : Meta) :
    (addNode s ⟨i, m⟩).dbNodes = alSet s.dbNodes i m := by
  show alSet (memAddNode s ⟨i, m⟩).dbNodes i m = _
  rw [dbNodes_memAddNode]

/-- Auto-created or already present: after `memEnsureNode s i`, `i` is a
graph node. -/
theorem mem_memEnsureNode_self (s : Store) (i : String) :
    i ∈ memNodeIds (memEnsureNode s i) := by
  unfold memEnsureNode
  split
  · next h => exact (alGet_isSome_iff s.memNodes i).mp h
  · show i ∈ alKeys (s.memNodes ++ [(i, [])])
    simp [alKeys]

theorem memNodeIds_memEnsureNode_mono (s : Store) (i j : String)
    (h : j ∈ memNodeIds s) : j ∈ memNodeIds (memEnsureNode s i) := by
  unfold memEnsureNode
  split
  · exact h
  · show j ∈ alKeys (s.memNodes ++ [(i, [])])
    rw [show alKeys (s.memNodes ++ [(i, [])]) = alKeys s.memNodes ++ [i] from by
      simp [alKeys]]
    exact List.mem_append_left _ h

theorem memNodeIds_memAddEdge (s : Store) (e : EdgeCreate) :
    memNodeIds (memAddEdge s e) =
      memNodeIds (memEnsureNode (memEnsureNode s e.source) e.target) := by
  unfold memAddEdge
  rfl

/-! ## Sorting lemmas (step 4 of `hybrid_search`) -/

theorem mem_insertDesc (x z : Cand) (l : List Cand) :
    z ∈ insertDesc x l ↔ z = x ∨ z ∈ l := by
  induction l with
  | nil => simp [insertDesc]
  | cons y ys ih =>
    unfold insertDesc
    split
    · simp
    · simp [ih]
      tauto

theorem perm_insertDesc (x : Cand) (l : List Cand) : (insertDesc x l).Perm (x :: l) := by
  induction l with
  | nil => exact List.Perm.refl _
  | cons y ys ih =>
    unfold insertDesc
    split
    · exact List.Perm.refl _
    · exact ((ih.cons y).trans (List.Perm.swap x y ys))

theorem perm_sortDesc_aux (l acc : List Cand) :
    (l.foldl (fun a x => insertDesc x a) acc).Perm (l ++ acc) := by
  induction l generalizing acc with
  | nil => simp [List.Perm.refl]
  | cons x rest ih =>
    simp only [List.foldl_cons, List.cons_append]
    refine (ih (insertDesc x acc)).trans ?_
    refine (List.Perm.append_left rest (perm_insertDesc x acc)).trans ?_
    exact List.perm_middle

theorem perm_sortDesc (l : List Cand) : (sortDesc l).Perm l := by
  simpa using perm_sortDesc_aux l []

theorem pairwise_insertDesc (x : Cand) (l : List Cand)
    (h : l.Pairwise (fun a b => b.score ≤ a.score)) :
    (insertDesc x l).Pairwise (fun a b => b.score ≤ a.score) := by
  induction l with
  | nil => simp [insertDesc]
  | cons y ys ih =>
    rw [List.pairwise_cons] at h
    unfold insertDesc
    split
    · next hlt =>
      rw [List.pairwise_cons]
      refine ⟨fun z hz => ?_, List.pairwise_cons.mpr h⟩
      rcases List.mem_cons.mp hz with rfl | hz
      · exact le_of_lt hlt
      · exact le_trans (h.1 z hz) (le_of_lt hlt)
    · next hge =>
      rw [List.pairwise_cons]
      refine ⟨fun z hz => ?_, ih h.2⟩
      rcases (mem_insertDesc x z ys).mp hz with rfl | hz
      · exact not_lt.mp hge
      · exact h.1 z hz

theorem pairwise_sortDesc_aux (l acc : List Cand)
    (h : acc.Pairwise (fun a b => b.score ≤ a.score)) :
    (l.foldl (fun a x => insertDesc x a) acc).Pairwise (fun a b => b.score ≤ a.score) := by
  induction l generalizing acc with
  | nil => exact h
  | cons x rest ih => exact ih _ (pairwise_insertDesc x acc h)

theorem pairwise_sortDesc (l : List Cand) :
    (sortDesc l).Pairwise (fun a b => b.score ≤ a.score) :=
  pairwise_sortDesc_aux l [] (List.Pairwise.nil)

/-! ## BFS lemmas (`get_neighbors` for depth other than 1) -/

theorem subset_expand (s : Store) (cur : List String) (x : String)
    (h : x ∈ cur) : x ∈ expand s cur := by
  unfold expand
  rw [List.mem_dedup]
  exact List.mem_append_left _ h

theorem adj_mem_expand (s : Store) (cur : List String) (u x : String)
    (hu : u ∈ cur) (hx : x ∈ adjUndir s u) : x ∈ expand s cur := by
  unfold expand
  rw [List.mem_dedup]
  exact List.mem_append_right _ (List.mem_flatMap.mpr ⟨u, hu, hx⟩)

theorem ball_mono_succ (s : Store) (n : String) (d : Nat) (x : String)
    (h : x ∈ ball s n d) : x ∈ ball s n (d + 1) :=
  subset_expand s (ball s n d) x h

/-- Lookup in the `scores` dict built by step 1 of `hybrid_search`: with
duplicate-free anchor ids it returns the anchor's weighted similarity. -/
theorem alGet_scoresOf (vw : ℚ) (vres : List Anchor) (acc : List (String × ℚ))
    (nid : String) (h : (vres.map Anchor.id).Nodup) :
    alGet (vres.foldl (fun a r => alSet a r.id (r.score * vw)) acc) nid =
      match vres.find? (fun a => a.id = nid) with
      | some a => some (a.score * vw)
      | none => alGet acc nid := by
  induction vres generalizing acc with
  | nil => rfl
  | cons r rest ih =>
    rw [List.map_cons, List.nodup_cons] at h
    rw [List.foldl_cons, ih _ h.2]
    by_cases hr : r.id = nid
    · have hfr : rest.find? (fun a => a.id = nid) = none := by
        rw [List.find?_eq_none]
        intro a ha
        rw [decide_eq_true_eq]
        intro he
        apply h.1
        rw [hr, ← he]
        exact List.mem_map.mpr ⟨a, ha, rfl⟩
      rw [hfr]
      have hfc : (r :: rest).find? (fun a => a.id = nid) = some r :=
        List.find?_cons_of_pos _ (by rw [decide_eq_true_eq]; exact hr)
      rw [hfc, hr, alGet_alSet_self]
    · have hfc : (r :: rest).find? (fun a => a.id = nid) =
          rest.find? (fun a => a.id = nid) :=
        List.find?_cons_of_neg _ (by rw [decide_eq_true_eq]; exact hr)
      rw [hfc]
      cases rest.find? (fun a => a.id = nid) with
      | none => exact alGet_alSet_ne acc r.id nid _ (fun he => hr he.symm)
      | some a => rfl

/-- Lookup in the full `scores` dict (starting from the empty dict). -/
theorem alGet_scoresOf_closed (vw : ℚ) (vres : List Anchor) (nid : String)
    (h : (vres.map Anchor.id).Nodup) :
    alGet (scoresOf vres vw) nid =
      (vres.find? (fun a => a.id = nid)).map (fun a => a.score * vw) := by
  have h2 := alGet_scoresOf vw vres [] nid h
  unfold scoresOf
  rw [h2]
  cases vres.find? (fun a => a.id = nid) <;> rfl

/-- A pair-length permutation is one of the two arrangements. -/
theorem perm_pair {α : Type} {l : List α} {a b : α} (h : l.Perm [a, b]) :
    l = [a, b] ∨ l = [b, a] := by
  rcases List.length_eq_two.mp (h.length_eq.trans rfl) with ⟨x, y, rfl⟩
  have hx : x ∈ [a, b] := h.subset (List.mem_cons_self x [y])
  rcases List.mem_cons.mp hx with rfl | hx
  · have : [y].Perm [b] := h.cons_inv
    rw [List.perm_singleton.mp this]
    exact Or.inl rfl
  · rcases List.mem_singleton.mp hx with rfl
    have h2 : (x :: [y]).Perm (x :: [a]) := h.trans (List.Perm.swap x a [])
    rw [List.perm_singleton.mp h2.cons_inv]
    exact Or.inr rfl

/-! ## Traversal helper lemmas -/

theorem memNodeIds_dbPutEdge (s : Store) (e : EdgeCreate) :
    memNodeIds (dbPutEdge s e) = memNodeIds s := rfl

theorem target_mem_successors (s : Store) (e : EdgeCreate) :
    e.target ∈ successors (memAddEdge s e) e.source := by
  unfold successors
  rw [memEdges_memAddEdge]
  refine List.mem_map.mpr ⟨((e.source, e.target), (e.type, e.weight)), ?_, rfl⟩
  exact List.mem_filter.mpr ⟨mem_alSet_self _ _ _, by simp⟩

theorem source_mem_predecessors (s : Store) (e : EdgeCreate) :
    e.source ∈ predecessors (memAddEdge s e) e.target := by
  unfold predecessors
  rw [memEdges_memAddEdge]
  refine List.mem_map.mpr ⟨((e.source, e.target), (e.type, e.weight)), ?_, rfl⟩
  exact List.mem_filter.mpr ⟨mem_alSet_self _ _ _, by simp⟩

theorem hasSelfLoop_of_mem_succ (s : Store) (n : String)
    (h : n ∈ successors s n) : hasSelfLoop s n = true := by
  unfold successors at h
  rcases List.mem_map.mp h with ⟨e, he, h2⟩
  rcases List.mem_filter.mp he with ⟨hmem, hcond⟩
  rw [decide_eq_true_eq] at hcond
  unfold hasSelfLoop
  rw [alGet_isSome_iff]
  refine List.mem_map.mpr ⟨e, hmem, ?_⟩
  show e.1 = (n, n)
  rw [Prod.ext_iff]
  exact ⟨hcond, h2⟩

theorem hasSelfLoop_of_mem_pred (s : Store) (n : String)
    (h : n ∈ predecessors s n) : hasSelfLoop s n = true := by
  unfold predecessors at h
  rcases List.mem_map.mp h with ⟨e, he, h2⟩
  rcases List.mem_filter.mp he with ⟨hmem, hcond⟩
  rw [decide_eq_true_eq] at hcond
  unfold hasSelfLoop
  rw [alGet_isSome_iff]
  refine List.mem_map.mpr ⟨e, hmem, ?_⟩
  show e.1 = (n, n)
  rw [Prod.ext_iff]
  exact ⟨h2, hcond⟩

/-! # Claims -/

/-- C10: for every graph state, every node id (present or absent) and every
depth ≤ 0, `get_neighbors` returns the empty set and raises no error: the
depth-1 special case is bypassed, a negative cutoff yields no BFS level at
all, and cutoff 0 admits only the start node, which the final filter
removes. -/
theorem C10_get_neighbors_nonpositive_depth (s : Store) (id : String) (depth : Int)
    (h : depth ≤ 0) : get_neighbors s id depth = [] := by
  unfold get_neighbors
  by_cases hid : id ∈ memNodeIds s
  · rw [if_pos hid, if_neg (by omega : ¬ depth = 1)]
    by_cases hneg : depth < 0
    · rw [if_pos hneg]
    · have h0 : depth = 0 := by omega
      subst h0
      rw [if_neg hneg]
      show (ball s id ((0 : Int).toNat)).filter (fun x => x ≠ id) = []
      simp [ball, List.filter]
  · rw [if_neg hid]

/-- Witness for C10: a present node queried at depth 0 gives the empty
result. -/
theorem C10_witness :
    get_neighbors (add_nodes emptyStore [⟨"A", []⟩]) "A" 0 = [] :=
  C10_get_neighbors_nonpositive_depth _ "A" 0 (by decide)

/-- C6 counterexample: with the self-loop `A→A` in the graph, the node `A`
is present and `get_neighbors(A, 1)` contains the queried node `A` itself —
the code's depth-1 branch takes `list(set(successors + predecessors))`
without excluding the queried node, contradicting the claimed exclusion. -/
theorem C6_counterexample :
    "A" ∈ memNodeIds stLoop ∧ "A" ∈ get_neighbors stLoop "A" 1 := by decide

/-- C6 amended: for every node present in the graph, `get_neighbors(n, 1)`
is duplicate-free and is exactly the union of successors and predecessors —
with no exclusion of the queried node, so `n` itself appears when it has a
self-loop. -/
theorem C6_depth_one_is_succ_union_pred (s : Store) (n : String)
    (h : n ∈ memNodeIds s) :
    (get_neighbors s n 1).Nodup ∧
    ∀ x, x ∈ get_neighbors s n 1 ↔ (x ∈ successors s n ∨ x ∈ predecessors s n) := by
  unfold get_neighbors
  rw [if_pos h, if_pos rfl]
  exact ⟨List.nodup_dedup _, fun x => by rw [List.mem_dedup, List.mem_append]⟩

/-- Witness for C6 at the self-loop store. -/
theorem C6_witness :
    "A" ∈ get_neighbors stLoop "A" 1 ↔
      ("A" ∈ successors stLoop "A" ∨ "A" ∈ predecessors stLoop "A") :=
  (C6_depth_one_is_succ_union_pred stLoop "A" (by decide)).2 "A"

/-- C5 counterexample: after `add_edges` of the single orphan edge `A→B`
(neither endpoint ever upserted as a node), `get_neighbors("B", 1)` returns
`["A"]`, not the empty set the claim asserts — the in-memory graph
auto-creates edge endpoints as nodes, so traversal does reach orphan
edges. -/
theorem C5_counterexample :
    get_neighbors (add_edges emptyStore [⟨"A", "B", "t", 1⟩]) "B" 1 = ["A"] ∧
    (["A"] : List String) ≠ [] := by decide

/-- C5 amended: `add_edges` makes both endpoints in-memory graph nodes, and
a node-rooted depth-1 query from either endpoint reaches the other across
the new edge; only an id absent from the in-memory graph (never upserted as
a node and never an edge endpoint) yields the empty set. -/
theorem C5_orphan_edges_reachable :
    (∀ (s : Store) (e : EdgeCreate),
      e.source ∈ memNodeIds (addEdge s e) ∧
      e.target ∈ memNodeIds (addEdge s e) ∧
      e.target ∈ get_neighbors (addEdge s e) e.source 1 ∧
      e.source ∈ get_neighbors (addEdge s e) e.target 1) ∧
    (∀ (s : Store) (id : String) (depth : Int),
      id ∉ memNodeIds s → get_neighbors s id depth = []) := by
  constructor
  · intro s e
    have hsrc : e.source ∈ memNodeIds (addEdge s e) := by
      show e.source ∈ memNodeIds (memAddEdge s e)
      rw [memNodeIds_memAddEdge]
      exact memNodeIds_memEnsureNode_mono _ _ _ (mem_memEnsureNode_self s e.source)
    have htgt : e.target ∈ memNodeIds (addEdge s e) := by
      show e.target ∈ memNodeIds (memAddEdge s e)
      rw [memNodeIds_memAddEdge]
      exact mem_memEnsureNode_self _ e.target
    refine ⟨hsrc, htgt, ?_, ?_⟩
    · unfold get_neighbors
      rw [if_pos hsrc, if_pos rfl, List.mem_dedup]
      exact List.mem_append_left _ (target_mem_successors s e)
    · unfold get_neighbors
      rw [if_pos htgt, if_pos rfl, List.mem_dedup]
      exact List.mem_append_right _ (source_mem_predecessors s e)
  · intro s id depth hid
    unfold get_neighbors
    rw [if_neg hid]

/-- Witness for C5: the orphan edge endpoint is reached, and a genuinely
absent id gives the empty result. -/
theorem C5_witness :
    "B" ∈ get_neighbors (addEdge emptyStore ⟨"A", "B", "t", 1⟩) "A" 1 ∧
    get_neighbors emptyStore "Z" 1 = [] :=
  ⟨(C5_orphan_edges_reachable.1 emptyStore ⟨"A", "B", "t", 1⟩).2.2.1,
   C5_orphan_edges_reachable.2 emptyStore "Z" 1 (by decide)⟩

/-- C7 counterexample: with the self-loop `A→A`, `get_neighbors(A, 1)`
contains `A` (the depth-1 branch keeps the queried node) but
`get_neighbors(A, 2)` does not (the BFS branch filters it out), so
`neighbors(n, d) ⊆ neighbors(n, d+1)` fails at `d = 1`. -/
theorem C7_counterexample :
    "A" ∈ get_neighbors stLoop "A" 1 ∧ "A" ∉ get_neighbors stLoop "A" 2 := by decide

/-- C7 amended: depth-monotonicity holds for every `d ≥ 2`, and at `d = 1`
it holds provided the queried node has no self-loop (a self-loop puts the
node into its own depth-1 result, which no deeper result contains). -/
theorem C7_monotone_depth (s : Store) (n : String) (d : Int) (h1 : 1 ≤ d)
    (h2 : d = 1 → hasSelfLoop s n = false) :
    ∀ x ∈ get_neighbors s n d, x ∈ get_neighbors s n (d + 1) := by
  intro x hx
  by_cases hn : n ∈ memNodeIds s
  case neg =>
    unfold get_neighbors at hx
    rw [if_neg hn] at hx
    exact absurd hx (List.not_mem_nil x)
  by_cases hd1 : d = 1
  · subst hd1
    unfold get_neighbors at hx ⊢
    rw [if_pos hn, if_pos rfl, List.mem_dedup] at hx
    rw [if_pos hn, if_neg (by norm_num : ¬ (1 + 1 : Int) = 1),
      if_neg (by norm_num : ¬ (1 + 1 : Int) < 0)]
    have hadj : x ∈ adjUndir s n := hx
    have hball : x ∈ ball s n (1 + 1 : Int).toNat := by
      have ht : (1 + 1 : Int).toNat = 2 := rfl
      rw [ht]
      exact ball_mono_succ s n 1 x (adj_mem_expand s (ball s n 0) n x (by simp [ball]) hadj)
    refine List.mem_filter.mpr ⟨hball, ?_⟩
    rw [decide_eq_true_eq]
    intro heq
    rcases List.mem_append.mp hadj with hs | hp
    · have hl := hasSelfLoop_of_mem_succ s n (heq ▸ hs)
      rw [h2 rfl] at hl
      exact Bool.noConfusion hl
    · have hl := hasSelfLoop_of_mem_pred s n (heq ▸ hp)
      rw [h2 rfl] at hl
      exact Bool.noConfusion hl
  · unfold get_neighbors at hx ⊢
    rw [if_pos hn, if_neg hd1, if_neg (by omega : ¬ d < 0)] at hx
    rw [if_pos hn, if_neg (by omega : ¬ d + 1 = 1), if_neg (by omega : ¬ d + 1 < 0)]
    rcases List.mem_filter.mp hx with ⟨hb, hne⟩
    refine List.mem_filter.mpr ⟨?_, hne⟩
    have ht : (d + 1).toNat = d.toNat + 1 := by omega
    rw [ht]
    exact ball_mono_succ s n d.toNat x hb

/-- Witness for C7: on the worked-example graph (no self-loop), the depth-1
neighbor `B` of `A` is still a depth-2 neighbor. -/
theorem C7_witness : "B" ∈ get_neighbors stWorked "A" (1 + 1) :=
  C7_monotone_depth stWorked "A" 1 (by decide) (fun _ => by decide) "B" (by decide)

/-- C1 counterexample: on the spec's exact worked example the code returns
`[A: 0.51, B: 0.335]`, not the claimed `[A: 0.45, B: 0.335]` — anchor `A`
is a (predecessor-)neighbor of anchor `B`, so it accumulates the boost
`0.3 × 0.4 = 0.12`, and `score(A) = 0.45 + min(0.12, 1) × 0.5 = 0.51`.
The stated enumeration of the candidate set is admissible (a permutation of
`all_ids`), and with both final scores distinct the output is the same for
every enumeration. -/
theorem C1_counterexample :
    (["A", "B"].Perm (allIds (scoresOf vresWorked (1/2)) (boostsOf stWorked vresWorked))) ∧
    hybrid_search stWorked vresWorked (1/2) (1/2) 2 ["A", "B"] =
      [⟨"A", 51/100⟩, ⟨"B", 67/200⟩] ∧
    hybrid_search stWorked vresWorked (1/2) (1/2) 2 ["A", "B"] ≠
      [⟨"A", 45/100⟩, ⟨"B", 67/200⟩] := by
  have eBA : (decide ("B" = "A")) = false := by decide
  have eAB : (decide ("A" = "B")) = false := by decide
  have eAA : (decide ("A" = "A")) = true := by decide
  have eBB : (decide ("B" = "B")) = true := by decide
  have hgood : hybrid_search stWorked vresWorked (1/2) (1/2) 2 ["A", "B"] =
      [⟨"A", 51/100⟩, ⟨"B", 67/200⟩] := by
    norm_num [hybrid_search, sortDesc, insertDesc, mkCand, scoresOf, boostsOf, allIds,
      alSet, alGet, get_neighbors, successors, predecessors, memNodeIds, alKeys, stWorked,
      vresWorked, add_edges, addEdge, memAddEdge, memEnsureNode, dbPutEdge, emptyStore,
      List.find?, List.filter, dictUpdate, eBA, eAB, eAA, eBB, inf_eq_min, min_def]
  refine ⟨by decide, hgood, ?_⟩
  intro hcontra
  rw [hgood] at hcontra
  simp only [List.cons.injEq, Cand.mk.injEq] at hcontra
  exact absurd hcontra.1.2 (by norm_num)

/-- C1 amended: on the worked-example scenario the ranked output is
`[A: 0.51, B: 0.335]` for every admissible candidate enumeration: every
anchor's score is its similarity × vector_weight plus
`min(sum of 0.3 × similarity over anchors it neighbors, 1.0) × graph_weight`,
and `A` neighbors anchor `B` (the edge `A→B` read in the incoming
direction), so `A`'s boost is `0.3 × 0.4 = 0.12`, not `0`. -/
theorem C1_worked_example_actual (order : List String)
    (h : order.Perm (allIds (scoresOf vresWorked (1/2)) (boostsOf stWorked vresWorked))) :
    hybrid_search stWorked vresWorked (1/2) (1/2) 2 order =
      [⟨"A", 51/100⟩, ⟨"B", 67/200⟩] := by
  have eBA : (decide ("B" = "A")) = false := by decide
  have eAB : (decide ("A" = "B")) = false := by decide
  have eAA : (decide ("A" = "A")) = true := by decide
  have eBB : (decide ("B" = "B")) = true := by decide
  have hAll : allIds (scoresOf vresWorked (1/2)) (boostsOf stWorked vresWorked) =
      ["B", "A"] := by decide
  rw [hAll] at h
  rcases perm_pair h with h | h <;> rw [h] <;>
    norm_num [hybrid_search, sortDesc, insertDesc, mkCand, scoresOf, boostsOf, allIds,
      alSet, alGet, get_neighbors, successors, predecessors, memNodeIds, alKeys, stWorked,
      vresWorked, add_edges, addEdge, memAddEdge, memEnsureNode, dbPutEdge, emptyStore,
      List.find?, List.filter, dictUpdate, eBA, eAB, eAA, eBB, inf_eq_min, min_def]

/-- Witness for C1 at one concrete enumeration of the candidate set. -/
theorem C1_witness :
    hybrid_search stWorked vresWorked (1/2) (1/2) 2 ["B", "A"] =
      [⟨"A", 51/100⟩, ⟨"B", 67/200⟩] :=
  C1_worked_example_actual ["B", "A"] (by decide)

/-- C8 counterexample: two anchors with equal similarity 0.5 and no graph
edges produce two candidates with equal final score; under the admissible
candidate enumeration `["B", "A"]` (a Python set's iteration order is not
specified) the stable sort returns `B` before `A`, which is not ascending
lexical order — the code sorts by score only and has no tie-break. -/
theorem C8_counterexample :
    (["B", "A"].Perm (allIds (scoresOf [⟨"B", 1/2⟩, ⟨"A", 1/2⟩] (1/2))
      (boostsOf emptyStore [⟨"B", 1/2⟩, ⟨"A", 1/2⟩]))) ∧
    hybrid_search emptyStore [⟨"B", 1/2⟩, ⟨"A", 1/2⟩] (1/2) (1/2) 2 ["B", "A"] =
      [⟨"B", 1/4⟩, ⟨"A", 1/4⟩] ∧
    ¬ ("B" < "A") := by
  have eBA : (decide ("B" = "A")) = false := by decide
  have eAB : (decide ("A" = "B")) = false := by decide
  have eAA : (decide ("A" = "A")) = true := by decide
  have eBB : (decide ("B" = "B")) = true := by decide
  refine ⟨by decide, ?_, by simp; decide⟩
  norm_num [hybrid_search, sortDesc, insertDesc, mkCand, scoresOf, boostsOf, allIds,
    alSet, alGet, get_neighbors, successors, predecessors, memNodeIds, alKeys,
    emptyStore, List.find?, List.filter, dictUpdate, eBA, eAB, eAA, eBB,
    inf_eq_min, min_def]

/-- C8 amended: candidates are sorted by final score descending before
truncation to top_k (stated as: every returned list is pairwise
non-increasing in score), but candidates with equal score keep the
iteration order of the candidate set — Python's stable sort with a
score-only key — and no lexical tie-break is applied. -/
theorem C8_sorted_by_score_descending (s : Store) (vres : List Anchor)
    (vw gw : ℚ) (k : Nat) (order : List String) :
    (hybrid_search s vres vw gw k order).Pairwise (fun a b => b.score ≤ a.score) := by
  unfold hybrid_search
  exact List.Pairwise.sublist (List.take_sublist _ _) (pairwise_sortDesc _)

/-- C9 counterexample: with the single anchor `A` (similarity 0.5), the
graph edge `A→B`, `vector_weight = 1`, `graph_weight = 0` and `top_k = 2`,
the result is `[A: 0.5, B: 0]`: the graph-only candidate `B` — never
returned by the similarity collaborator — surfaces with score 0 because the
code keeps every member of the candidate union and only truncates to
top_k. -/
theorem C9_counterexample :
    (["A", "B"].Perm (allIds (scoresOf [⟨"A", 1/2⟩] 1) (boostsOf stWorked [⟨"A", 1/2⟩]))) ∧
    hybrid_search stWorked [⟨"A", 1/2⟩] 1 0 2 ["A", "B"] = [⟨"A", 1/2⟩, ⟨"B", 0⟩] ∧
    "B" ∉ ([⟨"A", 1/2⟩] : List Anchor).map Anchor.id := by
  have eBA : (decide ("B" = "A")) = false := by decide
  have eAB : (decide ("A" = "B")) = false := by decide
  have eAA : (decide ("A" = "A")) = true := by decide
  have eBB : (decide ("B" = "B")) = true := by decide
  refine ⟨by decide, ?_, by decide⟩
  norm_num [hybrid_search, sortDesc, insertDesc, mkCand, scoresOf, boostsOf, allIds,
    alSet, alGet, get_neighbors, successors, predecessors, memNodeIds, alKeys, stWorked,
    add_edges, addEdge, memAddEdge, memEnsureNode, dbPutEdge, emptyStore,
    List.find?, List.filter, dictUpdate, eBA, eAB, eAA, eBB, inf_eq_min, min_def]

/-- C9 amended: with `vector_weight = 1` and `graph_weight = 0` (and
anchors with distinct ids), every returned candidate scores exactly its
collaborator similarity if it is an anchor and 0 otherwise; hence every
entry with positive score is an anchor id, anchors rank purely by
similarity (the output is score-sorted by the C8 theorem), and graph-only
candidates can surface only with score 0, filling slots when top_k exceeds
the number of positive-score candidates. -/
theorem C9_vector_only_scores (s : Store) (vres : List Anchor) (k : Nat)
    (order : List String) (h : (vres.map Anchor.id).Nodup) :
    ∀ c ∈ hybrid_search s vres 1 0 k order,
      c.score = ((vres.find? (fun a => a.id = c.id)).map Anchor.score).getD 0 ∧
      (0 < c.score → c.id ∈ vres.map Anchor.id) := by
  intro c hc
  have hc2 : c ∈ sortDesc (order.map (mkCand (scoresOf vres 1) (boostsOf s vres) 0)) :=
    List.mem_of_mem_take hc
  have hc3 : c ∈ order.map (mkCand (scoresOf vres 1) (boostsOf s vres) 0) :=
    (perm_sortDesc _).subset hc2
  rcases List.mem_map.mp hc3 with ⟨nid, hnid, hmk⟩
  have hid : c.id = nid := by rw [← hmk]; rfl
  have hscore : c.score = (alGet (scoresOf vres 1) nid).getD 0 := by
    rw [← hmk]
    show (alGet (scoresOf vres 1) nid).getD 0 +
        min ((alGet (boostsOf s vres) nid).getD 0) 1 * 0 =
      (alGet (scoresOf vres 1) nid).getD 0
    rw [mul_zero, add_zero]
  have hlook : alGet (scoresOf vres 1) nid =
      (vres.find? (fun a => a.id = nid)).map (fun a => a.score * 1) :=
    alGet_scoresOf_closed 1 vres nid h
  constructor
  · rw [hscore, hlook, hid]
    cases hf : vres.find? (fun a => a.id = nid) with
    | none => rfl
    | some a => show a.score * 1 = a.score; rw [mul_one]
  · intro hpos
    rw [hscore, hlook] at hpos
    cases hf : vres.find? (fun a => a.id = nid) with
    | none => rw [hf] at hpos; exact absurd hpos (by simp)
    | some a =>
      rw [hid]
      have hmem := List.mem_of_find?_eq_some hf
      have hp := List.find?_some hf
      rw [decide_eq_true_eq] at hp
      exact List.mem_map.mpr ⟨a, hmem, hp⟩

/-- Witness for C9: the surfaced graph-only candidate `B` has score 0 and
the anchor-score characterization holds for it. -/
theorem C9_witness :
    (⟨"B", 0⟩ : Cand).score =
      ((([⟨"A", 1/2⟩] : List Anchor).find? (fun a => a.id = (⟨"B", 0⟩ : Cand).id)).map
        Anchor.score).getD 0 ∧
    (0 < (⟨"B", 0⟩ : Cand).score → (⟨"B", 0⟩ : Cand).id ∈
      ([⟨"A", 1/2⟩] : List Anchor).map Anchor.id) := by
  have eBA : (decide ("B" = "A")) = false := by decide
  have eAB : (decide ("A" = "B")) = false := by decide
  have eAA : (decide ("A" = "A")) = true := by decide
  have eBB : (decide ("B" = "B")) = true := by decide
  have heq : hybrid_search stWorked [⟨"A", 1/2⟩] 1 0 2 ["A", "B"] =
      [⟨"A", 1/2⟩, ⟨"B", 0⟩] := by
    norm_num [hybrid_search, sortDesc, insertDesc, mkCand, scoresOf, boostsOf, allIds,
      alSet, alGet, get_neighbors, successors, predecessors, memNodeIds, alKeys, stWorked,
      add_edges, addEdge, memAddEdge, memEnsureNode, dbPutEdge, emptyStore,
      List.find?, List.filter, dictUpdate, eBA, eAB, eAA, eBB, inf_eq_min, min_def]
  refine C9_vector_only_scores stWorked [⟨"A", 1/2⟩] 2 ["A", "B"] (by decide) ⟨"B", 0⟩ ?_
  rw [heq]
  exact List.mem_cons_of_mem _ (List.mem_singleton.mpr rfl)

/-- The memory node-id list only grows under one `add_nodes` iteration. -/
theorem memNodeIds_addNode_mono (s : Store) (i : String) (m : Meta) (j : String)
    (hj : j ∈ memNodeIds s) : j ∈ memNodeIds (addNode s ⟨i, m⟩) := by
  show j ∈ alKeys (addNode s ⟨i, m⟩).memNodes
  rw [memNodes_addNode]
  cases heq : alGet s.memNodes i with
  | some old =>
    show j ∈ alKeys (alSet s.memNodes i (dictUpdate old m))
    rw [alKeys_alSet, if_pos ((alGet_isSome_iff s.memNodes i).mp (by rw [heq]; rfl))]
    exact hj
  | none =>
    show j ∈ alKeys (s.memNodes ++ [(i, dictUpdate [] m)])
    rw [show alKeys (s.memNodes ++ [(i, dictUpdate [] m)]) =
        alKeys s.memNodes ++ [i] from by simp [alKeys]]
    exact List.mem_append_left _ hj

/-- The upserted node id is a memory node after one `add_nodes` iteration. -/
theorem mem_memNodeIds_addNode_self (s : Store) (i : String) (m : Meta) :
    i ∈ memNodeIds (addNode s ⟨i, m⟩) := by
  show i ∈ alKeys (addNode s ⟨i, m⟩).memNodes
  rw [memNodes_addNode]
  cases heq : alGet s.memNodes i with
  | some old =>
    show i ∈ alKeys (alSet s.memNodes i (dictUpdate old m))
    rw [alKeys_alSet, if_pos ((alGet_isSome_iff s.memNodes i).mp (by rw [heq]; rfl))]
    exact (alGet_isSome_iff s.memNodes i).mp (by rw [heq]; rfl)
  | none =>
    show i ∈ alKeys (s.memNodes ++ [(i, dictUpdate [] m)])
    rw [show alKeys (s.memNodes ++ [(i, dictUpdate [] m)]) =
        alKeys s.memNodes ++ [i] from by simp [alKeys]]
    exact List.mem_append_right _ (List.mem_singleton.mpr rfl)

theorem memEdges_addNode (s : Store) (n : NodeCreate) :
    (addNode s n).memEdges = s.memEdges := by
  show (memAddNode s n).memEdges = s.memEdges
  exact memEdges_memAddNode s n

theorem dbEdges_addNode (s : Store) (n : NodeCreate) :
    (addNode s n).dbEdges = s.dbEdges := by
  show (memAddNode s n).dbEdges = s.dbEdges
  exact dbEdges_memAddNode s n

theorem dbNodes_addEdge (s : Store) (e : EdgeCreate) :
    (addEdge s e).dbNodes = s.dbNodes := by
  show (memAddEdge s e).dbNodes = s.dbNodes
  exact dbNodes_memAddEdge s e

theorem dbEdges_addEdge (s : Store) (e : EdgeCreate) :
    (addEdge s e).dbEdges =
      alSet s.dbEdges (e.source, e.target, e.type) e.weight := by
  show alSet (memAddEdge s e).dbEdges (e.source, e.target, e.type) e.weight = _
  rw [dbEdges_memAddEdge]

theorem memEdges_addEdge (s : Store) (e : EdgeCreate) :
    (addEdge s e).memEdges =
      alSet s.memEdges (e.source, e.target) (e.type, e.weight) := by
  show (memAddEdge s e).memEdges = _
  exact memEdges_memAddEdge s e

/-- One `add_nodes` iteration preserves durable/in-memory consistency. -/
theorem dbMemConsistent_addNode (s : Store) (n : NodeCreate)
    (h : dbMemConsistent s) : dbMemConsistent (addNode s n) := by
  rcases n with ⟨i, m⟩
  obtain ⟨hn, he⟩ := h
  constructor
  · intro j hj
    rw [dbNodes_addNode, alKeys_alSet] at hj
    by_cases hmemdb : i ∈ alKeys s.dbNodes
    · rw [if_pos hmemdb] at hj
      exact memNodeIds_addNode_mono s i m j (hn j hj)
    · rw [if_neg hmemdb] at hj
      rcases List.mem_append.mp hj with hj | hj
      · exact memNodeIds_addNode_mono s i m j (hn j hj)
      · rw [List.mem_singleton.mp hj]
        exact mem_memNodeIds_addNode_self s i m
  · intro p hp
    rw [memEdges_addNode] at hp
    rw [dbEdges_addNode]
    exact he p hp

/-- One `add_edges` iteration preserves durable/in-memory consistency. -/
theorem dbMemConsistent_addEdge (s : Store) (e : EdgeCreate)
    (h : dbMemConsistent s) : dbMemConsistent (addEdge s e) := by
  obtain ⟨hn, he⟩ := h
  constructor
  · intro j hj
    rw [dbNodes_addEdge] at hj
    show j ∈ memNodeIds (memAddEdge s e)
    rw [memNodeIds_memAddEdge]
    exact memNodeIds_memEnsureNode_mono _ _ _
      (memNodeIds_memEnsureNode_mono _ _ _ (hn j hj))
  · intro p hp
    rw [memEdges_addEdge] at hp
    rw [dbEdges_addEdge]
    rcases mem_alSet_elim hp with hp | ⟨hp, hpk⟩
    · rw [hp]
      exact mem_alSet_self _ _ _
    · refine mem_alSet_of_keyne _ _ (he p hp) ?_
      intro hk
      apply hpk
      have h1 : p.1.1 = e.source := congrArg Prod.fst hk
      have h2 : p.1.2 = e.target := congrArg (fun q => q.2.1) hk
      rw [Prod.ext_iff]
      exact ⟨h1, h2⟩

theorem dbMemConsistent_add_nodes (s : Store) (ns : List NodeCreate)
    (h : dbMemConsistent s) : dbMemConsistent (add_nodes s ns) := by
  induction ns generalizing s with
  | nil => exact h
  | cons n rest ih => exact ih (addNode s n) (dbMemConsistent_addNode s n h)

theorem dbMemConsistent_add_edges (s : Store) (es : List EdgeCreate)
    (h : dbMemConsistent s) : dbMemConsistent (add_edges s es) := by
  induction es generalizing s with
  | nil => exact h
  | cons e rest ih => exact ih (addEdge s e) (dbMemConsistent_addEdge s e h)

theorem dbMemConsistent_applyOp (s : Store) (op : Op)
    (h : dbMemConsistent s) : dbMemConsistent (applyOp s op) := by
  cases op with
  | upsertNodes ns => exact dbMemConsistent_add_nodes s ns h
  | upsertEdges es => exact dbMemConsistent_add_edges s es h

/-- C2 counterexample: upserting node `A` with metadata `{x: 1}` and then
with `{y: 2}` leaves durable metadata `{y: 2}` (full replacement via SQLite
INSERT OR REPLACE) but in-memory metadata `{x: 1, y: 2}` — `networkx`'s
`add_node` merges attribute dicts, so the key `x` of the first write
survives in memory, contradicting the claimed full replacement. -/
theorem C2_counterexample :
    (add_nodes (add_nodes emptyStore [⟨"A", [("x", "1")]⟩]) [⟨"A", [("y", "2")]⟩]).dbNodes =
      [("A", [("y", "2")])] ∧
    (add_nodes (add_nodes emptyStore [⟨"A", [("x", "1")]⟩]) [⟨"A", [("y", "2")]⟩]).memNodes =
      [("A", [("x", "1"), ("y", "2")])] ∧
    ([("x", "1"), ("y", "2")] : Meta) ≠ [("y", "2")] := by decide

/-- C2 amended: after the two upserts (from any store whose node tables have
duplicate-free keys) exactly one node with that id exists in memory and in
durable storage, the durable metadata equals exactly `m2`, but the in-memory
metadata is the previous attribute dict updated with `m1` and then with `m2`
(Python dict merge), so keys of `m1` absent from `m2` survive in memory. -/
theorem C2_upsert_merge_in_memory (s : Store) (id : String) (m1 m2 : Meta)
    (hm : (alKeys s.memNodes).Nodup) (hd : (alKeys s.dbNodes).Nodup) :
    ((alKeys (add_nodes (add_nodes s [⟨id, m1⟩]) [⟨id, m2⟩]).memNodes).count id = 1) ∧
    ((alKeys (add_nodes (add_nodes s [⟨id, m1⟩]) [⟨id, m2⟩]).dbNodes).count id = 1) ∧
    alGet (add_nodes (add_nodes s [⟨id, m1⟩]) [⟨id, m2⟩]).dbNodes id = some m2 ∧
    alGet (add_nodes (add_nodes s [⟨id, m1⟩]) [⟨id, m2⟩]).memNodes id =
      some (dictUpdate (dictUpdate ((alGet s.memNodes id).getD []) m1) m2) := by
  have hsingle : ∀ (t : Store) (n : NodeCreate), add_nodes t [n] = addNode t n :=
    fun t n => rfl
  rw [hsingle, hsingle]
  -- the in-memory half after the first upsert
  have hmem1 : alGet (addNode s ⟨id, m1⟩).memNodes id =
      some (dictUpdate ((alGet s.memNodes id).getD []) m1) := by
    rw [memNodes_addNode]
    cases heq : alGet s.memNodes id with
    | some old => exact alGet_alSet_self _ _ _
    | none =>
      show alGet (s.memNodes ++ [(id, dictUpdate [] m1)]) id = some (dictUpdate [] m1)
      rw [alGet_append, heq]
      simp [alGet_cons]
  have hkeys1 : (alKeys (addNode s ⟨id, m1⟩).memNodes).count id = 1 := by
    rw [memNodes_addNode]
    cases heq : alGet s.memNodes id with
    | some old =>
      show (alKeys (alSet s.memNodes id (dictUpdate old m1))).count id = 1
      have hmemid : id ∈ alKeys s.memNodes :=
        (alGet_isSome_iff s.memNodes id).mp (by rw [heq]; rfl)
      rw [alKeys_alSet, if_pos hmemid]
      exact List.count_eq_one_of_mem hm hmemid
    | none =>
      show (alKeys (s.memNodes ++ [(id, dictUpdate [] m1)])).count id = 1
      have hnot : id ∉ alKeys s.memNodes := (alGet_eq_none_iff s.memNodes id).mp heq
      rw [show alKeys (s.memNodes ++ [(id, dictUpdate [] m1)]) =
          alKeys s.memNodes ++ [id] from by simp [alKeys]]
      rw [List.count_append, List.count_eq_zero.mpr hnot]
      simp
  -- the second upsert hits the replace branch in memory
  have hmem2 : (addNode (addNode s ⟨id, m1⟩) ⟨id, m2⟩).memNodes =
      alSet (addNode s ⟨id, m1⟩).memNodes id
        (dictUpdate (dictUpdate ((alGet s.memNodes id).getD []) m1) m2) := by
    rw [memNodes_addNode, hmem1]
  have hdb2 : (addNode (addNode s ⟨id, m1⟩) ⟨id, m2⟩).dbNodes =
      alSet (alSet s.dbNodes id m1) id m2 := by
    rw [dbNodes_addNode, dbNodes_addNode]
  refine ⟨?_, ?_, ?_, ?_⟩
  · rw [hmem2, alKeys_alSet,
      if_pos ((alGet_isSome_iff _ id).mp (by rw [hmem1]; rfl))]
    exact hkeys1
  · rw [hdb2, alKeys_alSet,
      if_pos ((alGet_isSome_iff _ id).mp (by rw [alGet_alSet_self]; rfl))]
    rw [alKeys_alSet]
    by_cases hmemdb : id ∈ alKeys s.dbNodes
    · rw [if_pos hmemdb]
      exact List.count_eq_one_of_mem hd hmemdb
    · rw [if_neg hmemdb, List.count_append, List.count_eq_zero.mpr hmemdb]
      simp
  · rw [hdb2]
    exact alGet_alSet_self _ _ _
  · rw [hmem2]
    exact alGet_alSet_self _ _ _

/-- Witness for C2: the concrete two-upsert scenario, where the in-memory
metadata is the merge `{x: 1, y: 2}` of the two writes. -/
theorem C2_witness :
    alGet (add_nodes (add_nodes emptyStore [⟨"A", [("x", "1")]⟩])
        [⟨"A", [("y", "2")]⟩]).memNodes "A" =
      some (dictUpdate (dictUpdate ((alGet emptyStore.memNodes "A").getD [])
        [("x", "1")]) [("y", "2")]) :=
  (C2_upsert_merge_in_memory emptyStore "A" [("x", "1")] [("y", "2")]
    (by decide) (by decide)).2.2.2

/-- C3 counterexample: one successfully completed `add_edges` on the empty
store leaves the in-memory graph with nodes `A` and `B` (networkx
auto-creates edge endpoints) while the durable `nodes` table is empty — the
two copies do not contain the same node ids, refuting semantic
equivalence. -/
theorem C3_counterexample :
    memNodeIds (applyOps emptyStore [Op.upsertEdges [⟨"A", "B", "t", 1⟩]]) =
      ["A", "B"] ∧
    (applyOps emptyStore [Op.upsertEdges [⟨"A", "B", "t", 1⟩]]).dbNodes = [] := by
  decide

/-- C3 amended: full semantic equivalence does not hold (edge endpoints
become in-memory nodes with no durable node row, durable metadata is the
last write while memory merges, and durable edge rows keyed by
`(source, target, type)` outlive in-memory edges keyed by `(source,
target)`); what every sequence of mutating operations preserves is the
one-sided consistency `dbMemConsistent`: every durable node id is an
in-memory node id, and every in-memory edge, with its type and weight, has
a matching durable row. -/
theorem C3_db_mem_consistency (s : Store) (ops : List Op)
    (h : dbMemConsistent s) : dbMemConsistent (applyOps s ops) := by
  induction ops generalizing s with
  | nil => exact h
  | cons op rest ih => exact ih (applyOp s op) (dbMemConsistent_applyOp s op h)

/-- Witness for C3: a run from the empty store through one node upsert and
one edge upsert. -/
theorem C3_witness :
    dbMemConsistent (applyOps emptyStore
      [Op.upsertNodes [⟨"A", [("k", "v")]⟩], Op.upsertEdges [⟨"A", "B", "t", 1⟩]]) :=
  C3_db_mem_consistency emptyStore
    [Op.upsertNodes [⟨"A", [("k", "v")]⟩], Op.upsertEdges [⟨"A", "B", "t", 1⟩]]
    (by constructor
        · intro i hi
          exact absurd hi (List.not_mem_nil i)
        · intro p hp
          exact absurd hp (List.not_mem_nil p))

/-! ## Fallible-write characterization (for C4) -/

theorem db_foldl_memAddNode (l : List NodeCreate) (s : Store) :
    (l.foldl memAddNode s).dbNodes = s.dbNodes ∧
    (l.foldl memAddNode s).dbEdges = s.dbEdges := by
  induction l generalizing s with
  | nil => exact ⟨rfl, rfl⟩
  | cons n rest ih =>
    rw [List.foldl_cons]
    exact ⟨(ih (memAddNode s n)).1.trans (dbNodes_memAddNode s n),
      (ih (memAddNode s n)).2.trans (dbEdges_memAddNode s n)⟩

theorem db_foldl_memAddEdge (l : List EdgeCreate) (s : Store) :
    (l.foldl memAddEdge s).dbNodes = s.dbNodes ∧
    (l.foldl memAddEdge s).dbEdges = s.dbEdges := by
  induction l generalizing s with
  | nil => exact ⟨rfl, rfl⟩
  | cons e rest ih =>
    rw [List.foldl_cons]
    exact ⟨(ih (memAddEdge s e)).1.trans (dbNodes_memAddEdge s e),
      (ih (memAddEdge s e)).2.trans (dbEdges_memAddEdge s e)⟩

theorem addNodesGo_error (ns : List NodeCreate) :
    ∀ (stx : Store) (pend : List NodeCreate) (fI : Nat), fI < ns.length →
      addNodesGo stx pend fI ns =
        .error ((ns.take (fI + 1)).foldl memAddNode stx) := by
  induction ns with
  | nil =>
    intro stx pend fI h
    exact absurd h (by simp)
  | cons n rest ih =>
    intro stx pend fI h
    cases fI with
    | zero => rfl
    | succ k =>
      show addNodesGo (memAddNode stx n) (pend ++ [n]) k rest = _
      rw [ih (memAddNode stx n) (pend ++ [n]) k (by simpa using h)]
      rfl

theorem addEdgesGo_error (es : List EdgeCreate) :
    ∀ (stx : Store) (pend : List EdgeCreate) (fI : Nat), fI < es.length →
      addEdgesGo stx pend fI es =
        .error ((es.take (fI + 1)).foldl memAddEdge stx) := by
  induction es with
  | nil =>
    intro stx pend fI h
    exact absurd h (by simp)
  | cons e rest ih =>
    intro stx pend fI h
    cases fI with
    | zero => rfl
    | succ k =>
      show addEdgesGo (memAddEdge stx e) (pend ++ [e]) k rest = _
      rw [ih (memAddEdge stx e) (pend ++ [e]) k (by simpa using h)]
      rfl

theorem dbPutNode_memAddNode_comm (x : Store) (m n : NodeCreate) :
    dbPutNode (memAddNode x m) n = memAddNode (dbPutNode x n) m := by
  unfold memAddNode dbPutNode
  dsimp only
  cases alGet x.memNodes m.id <;> rfl

theorem dbPutNode_foldl_comm (l : List NodeCreate) (x : Store) (n : NodeCreate) :
    dbPutNode (l.foldl memAddNode x) n = l.foldl memAddNode (dbPutNode x n) := by
  induction l generalizing x with
  | nil => rfl
  | cons m rest ih =>
    rw [List.foldl_cons, List.foldl_cons, ih (memAddNode x m), dbPutNode_memAddNode_comm]

theorem dbPutEdge_memAddEdge_comm (x : Store) (f e : EdgeCreate) :
    dbPutEdge (memAddEdge x f) e = memAddEdge (dbPutEdge x e) f := by
  unfold memAddEdge memEnsureNode dbPutEdge
  dsimp only
  split_ifs <;> rfl

theorem dbPutEdge_foldl_comm (l : List EdgeCreate) (x : Store) (e : EdgeCreate) :
    dbPutEdge (l.foldl memAddEdge x) e = l.foldl memAddEdge (dbPutEdge x e) := by
  induction l generalizing x with
  | nil => rfl
  | cons f rest ih =>
    rw [List.foldl_cons, List.foldl_cons, ih (memAddEdge x f), dbPutEdge_memAddEdge_comm]

theorem foldl_db_mem_eq_add_nodes (ns : List NodeCreate) (s : Store) :
    ns.foldl dbPutNode (ns.foldl memAddNode s) = add_nodes s ns := by
  induction ns generalizing s with
  | nil => rfl
  | cons n rest ih =>
    rw [List.foldl_cons, List.foldl_cons, dbPutNode_foldl_comm,
      ih (dbPutNode (memAddNode s n) n)]
    rfl

theorem foldl_db_mem_eq_add_edges (es : List EdgeCreate) (s : Store) :
    es.foldl dbPutEdge (es.foldl memAddEdge s) = add_edges s es := by
  induction es generalizing s with
  | nil => rfl
  | cons e rest ih =>
    rw [List.foldl_cons, List.foldl_cons, dbPutEdge_foldl_comm,
      ih (dbPutEdge (memAddEdge s e) e)]
    rfl

theorem addNodesGo_ok (ns : List NodeCreate) :
    ∀ (stx : Store) (pend : List NodeCreate) (fI : Nat), ns.length ≤ fI →
      addNodesGo stx pend fI ns =
        .ok ((pend ++ ns).foldl dbPutNode (ns.foldl memAddNode stx)) := by
  induction ns with
  | nil =>
    intro stx pend fI h
    show Except.ok (pend.foldl dbPutNode stx) = _
    rw [List.append_nil]
    rfl
  | cons n rest ih =>
    intro stx pend fI h
    cases fI with
    | zero => exact absurd h (by simp)
    | succ k =>
      show addNodesGo (memAddNode stx n) (pend ++ [n]) k rest = _
      rw [ih (memAddNode stx n) (pend ++ [n]) k (by simpa using h), List.append_assoc]
      rfl

theorem addEdgesGo_ok (es : List EdgeCreate) :
    ∀ (stx : Store) (pend : List EdgeCreate) (fI : Nat), es.length ≤ fI →
      addEdgesGo stx pend fI es =
        .ok ((pend ++ es).foldl dbPutEdge (es.foldl memAddEdge stx)) := by
  induction es with
  | nil =>
    intro stx pend fI h
    show Except.ok (pend.foldl dbPutEdge stx) = _
    rw [List.append_nil]
    rfl
  | cons e rest ih =>
    intro stx pend fI h
    cases fI with
    | zero => exact absurd h (by simp)
    | succ k =>
      show addEdgesGo (memAddEdge stx e) (pend ++ [e]) k rest = _
      rw [ih (memAddEdge stx e) (pend ++ [e]) k (by simpa using h), List.append_assoc]
      rfl

/-- C4 counterexample: when the durable write of the very first record
raises, the operation fails with the in-memory graph already mutated for
that record (node `A` is present in memory) while nothing was committed
durably — contradicting the claim that the in-memory state for the failing
record is unchanged and that the durable write precedes it. -/
theorem C4_counterexample :
    addNodesF emptyStore [⟨"A", [("k", "v")]⟩] 0 =
      Except.error (⟨[("A", [("k", "v")])], [], [], []⟩ : Store) ∧
    (⟨[("A", [("k", "v")])], [], [], []⟩ : Store).memNodes ≠ emptyStore.memNodes :=
  ⟨rfl, by decide⟩

/-- C4 amended: in each `add_nodes` / `add_edges` loop iteration the
in-memory mutation precedes the durable write; when the durable write of
record `i` fails, the operation raises with the in-memory graph mutated for
records `0..i` inclusive and with the durable tables unchanged (no statement
of the batch was committed); when no write fails, the run equals the plain
successful operation. -/
theorem C4_memory_mutated_before_durable_write (s : Store) (ns : List NodeCreate)
    (es : List EdgeCreate) (i j : Nat) :
    (i < ns.length →
      addNodesF s ns i = .error ((ns.take (i + 1)).foldl memAddNode s) ∧
      ((ns.take (i + 1)).foldl memAddNode s).dbNodes = s.dbNodes ∧
      ((ns.take (i + 1)).foldl memAddNode s).dbEdges = s.dbEdges) ∧
    (ns.length ≤ i → addNodesF s ns i = .ok (add_nodes s ns)) ∧
    (j < es.length →
      addEdgesF s es j = .error ((es.take (j + 1)).foldl memAddEdge s) ∧
      ((es.take (j + 1)).foldl memAddEdge s).dbNodes = s.dbNodes ∧
      ((es.take (j + 1)).foldl memAddEdge s).dbEdges = s.dbEdges) ∧
    (es.length ≤ j → addEdgesF s es j = .ok (add_edges s es)) := by
  refine ⟨fun h => ⟨addNodesGo_error ns s [] i h, (db_foldl_memAddNode _ s).1,
      (db_foldl_memAddNode _ s).2⟩,
    fun h => ?_,
    fun h => ⟨addEdgesGo_error es s [] j h, (db_foldl_memAddEdge _ s).1,
      (db_foldl_memAddEdge _ s).2⟩,
    fun h => ?_⟩
  · show addNodesGo s [] i ns = _
    rw [addNodesGo_ok ns s [] i h, List.nil_append, foldl_db_mem_eq_add_nodes]
  · show addEdgesGo s [] j es = _
    rw [addEdgesGo_ok es s [] j h, List.nil_append, foldl_db_mem_eq_add_edges]

/-- Witness for C4: the failing first write leaves the record in memory and
the durable tables untouched. -/
theorem C4_witness :
    addNodesF emptyStore [⟨"A", [("k", "v")]⟩] 0 =
      .error (([(⟨"A", [("k", "v")]⟩ : NodeCreate)].take 1).foldl memAddNode emptyStore) :=
  ((C4_memory_mutated_before_durable_write emptyStore [⟨"A", [("k", "v")]⟩] [] 0 0).1
    (by decide)).1

end VGDB
